import Mathlib

/-
Verification development for the expression-lowering stage of the Leo
front end (file src/types/src/expression.rs).

The development shallowly embeds the Rust code:

* The raw syntax tree of the parser (the leo_ast crate, whose definitions
  are only declared there and whose shapes are fixed by section 6 of the
  specification) is embedded as the Ast* inductive family.
* The Expression IR of the types crate is embedded as the mutual
  inductive family Expression / SpreadOrExpression / RangeOrExpression /
  CircuitFieldDefinition.
* Each Rust `impl From<...> for Expression` becomes a Lean function.
  Lowering receives a fuel argument because the Ne arm of
  `impl From<BinaryExpression> for Expression` recurses on its own input;
  a result of `none` means the Rust code does not terminate (or panics)
  on that input, and `some e` means it returns the tree `e`.
* `impl fmt::Display for Expression` becomes displayExpression, returning
  `Option String`; `none` models the panic of `get_value().unwrap()` on a
  boolean gadget that carries no value.
* Rust std behaviour (`str::parse::<usize>`, `str::parse::<bool>`,
  checked usize subtraction) is modelled by parseUsize, parseBool and
  usizeSub.
-/

namespace Leo

/- ===================== satellite value types ===================== -/

/-- Raw numeral token of the parser: the `number.value` text reached by
`get_count` and the literal conversions. -/
structure NumberValue where
  value : String

/-- Explicit integer-type tag carried by an integer literal
(bit-width/signedness tag of the spec, section 3). -/
inductive IntegerType where
  | u8
  | u16
  | u32
  | u64
  | u128

/-- leo_ast IntegerValue: numeral text plus the explicit type tag. -/
structure IntegerValue where
  number : NumberValue
  _type : IntegerType

/-- leo_ast FieldValue: numeral text of a field-element literal. -/
structure FieldValue where
  number : NumberValue

/-- Modelled from the spec: leo_ast GroupValue is not under src/; the spec
(sections 3 and 4.1) only requires a group literal carrying a textual
form, re-rendered canonically by `to_string`; we carry that text. -/
structure GroupValue where
  value : String

/-- Modelled from the spec: the canonical textual re-rendering
`group.to_string()` used by `impl From<GroupValue> for Expression`. -/
def GroupValue.to_string (group : GroupValue) : String :=
  group.value

/-- leo_ast BooleanValue: the raw text of a boolean literal token. -/
structure BooleanValue where
  value : String

/-- leo_ast NumberImplicitValue: numeral text of an implicitly typed
number literal. -/
structure NumberImplicitValue where
  number : NumberValue

/-- leo_ast Value: the raw literal kinds, as matched by `get_count` and
by `impl From<Value> for Expression`. -/
inductive Value where
  | Integer : IntegerValue → Value
  | Field : FieldValue → Value
  | Group : GroupValue → Value
  | Boolean : BooleanValue → Value
  | Implicit : NumberImplicitValue → Value

/-- leo_ast Identifier: a name (source positions are compared away; the
spec, section 3, says identifiers are compared by name). -/
structure AstIdentifier where
  value : String

/- ===================== Rust std models ===================== -/

/-- Model of Rust `str::parse::<usize>` (on the 64-bit build target):
an optional leading plus sign, then at least one ASCII digit, rejecting
everything else, and rejecting values that overflow usize. -/
def parseUsize (s : String) : Option Nat :=
  match s.data with
  | [] => none
  | c :: rest =>
    let digits := if c = '+' then rest else c :: rest
    if digits.isEmpty then none
    else if digits.all (fun d => d.isDigit) then
      let n := digits.foldl (fun acc d => acc * 10 + (d.toNat - 48)) 0
      if n < 2 ^ 64 then some n else none
    else none

/-- Model of Rust `str::parse::<bool>`: exactly the texts true/false. -/
def parseBool (s : String) : Option Bool :=
  if s = "true" then some true
  else if s = "false" then some false
  else none

/-- Model of Rust usize subtraction `a - b` as it behaves in the Display
loops: defined only when it does not underflow. -/
def usizeSub (a b : Nat) : Option Nat :=
  if b ≤ a then some (a - b) else none

/- ===================== the boolean gadget ===================== -/

/-- Modelled from the spec: the external snarkos boolean gadget held by a
Boolean leaf. The spec (sections 1 and 9) treats it as an opaque
capability that either holds a fixed constant value or is an allocated
variable whose value may be absent; `get_value` queries it. -/
inductive Boolean where
  | Constant : Bool → Boolean
  | Allocated : Option Bool → Boolean

/-- Modelled from the spec: querying the gadget for its value; an
allocated gadget may carry no value, in which case the Display arm of
the Boolean variant panics on `unwrap`. -/
def Boolean.get_value : Boolean → Option Bool
  | .Constant c => some c
  | .Allocated v => v

/- ===================== IR satellite entities ===================== -/

/-- Identifier of the types crate (declared outside src/; per the spec,
section 3, a name compared by name). -/
structure Identifier where
  name : String

/-- Conversion `Identifier::from(ast identifier)`: carries the name over
(modelled from the spec, section 3, the file is not under src/). -/
def Identifier.fromAst (identifier : AstIdentifier) : Identifier :=
  ⟨identifier.value⟩

/-- Integer of the types crate (declared outside src/; per the spec,
section 3, numeral text plus the explicit integer-type tag, carried
through unevaluated). -/
structure Integer where
  number : String
  _type : IntegerType

/-- Conversion `Integer::from(field.number, field._type)` used by
`impl From<IntegerValue> for Expression` (modelled from the spec,
section 4.1: text and tag are carried through unevaluated). -/
def Integer.fromParts (number : NumberValue) (t : IntegerType) : Integer :=
  ⟨number.value, t⟩

/- ===================== the Expression IR ===================== -/

mutual

/-- The Expression IR: direct embedding of `pub enum Expression` from
src/types/src/expression.rs (Box edges erased, Vec as List). -/
inductive Expression : Type where
  | Identifier : Identifier → Expression
  | Integer : Integer → Expression
  | Field : String → Expression
  | Group : String → Expression
  | Boolean : Boolean → Expression
  | Implicit : String → Expression
  | Add : Expression → Expression → Expression
  | Sub : Expression → Expression → Expression
  | Mul : Expression → Expression → Expression
  | Div : Expression → Expression → Expression
  | Pow : Expression → Expression → Expression
  | Not : Expression → Expression
  | Or : Expression → Expression → Expression
  | And : Expression → Expression → Expression
  | Eq : Expression → Expression → Expression
  | Ge : Expression → Expression → Expression
  | Gt : Expression → Expression → Expression
  | Le : Expression → Expression → Expression
  | Lt : Expression → Expression → Expression
  | IfElse : Expression → Expression → Expression → Expression
  | Array : List SpreadOrExpression → Expression
  | ArrayAccess : Expression → RangeOrExpression → Expression
  | Circuit : Identifier → List CircuitFieldDefinition → Expression
  | CircuitMemberAccess : Expression → Identifier → Expression
  | CircuitStaticFunctionAccess : Expression → Identifier → Expression
  | FunctionCall : Expression → List Expression → Expression

/-- SpreadOrExpression of the types crate (declared outside src/; per
the spec, section 3: tagged Spread or plain element). -/
inductive SpreadOrExpression : Type where
  | Spread : Expression → SpreadOrExpression
  | Expression : Expression → SpreadOrExpression

/-- RangeOrExpression of the types crate (declared outside src/; per the
spec, section 3: a range with optional bounds, or a single index). -/
inductive RangeOrExpression : Type where
  | Range : Option Expression → Option Expression → RangeOrExpression
  | Expression : Expression → RangeOrExpression

/-- CircuitFieldDefinition of the types crate (declared outside src/;
per the spec, section 3: a field Identifier paired with an initializing
Expression). -/
inductive CircuitFieldDefinition : Type where
  | mk : Identifier → Expression → CircuitFieldDefinition

end

/- ===================== the raw syntax tree ===================== -/

mutual

/-- leo_ast Expression (the raw syntax tree), with the nine shapes
matched by `impl From<AstExpression> for Expression`. -/
inductive AstExpression : Type where
  | Value : Value → AstExpression
  | Identifier : AstIdentifier → AstExpression
  | Not : NotExpression → AstExpression
  | Binary : BinaryExpression → AstExpression
  | Ternary : TernaryExpression → AstExpression
  | ArrayInline : ArrayInlineExpression → AstExpression
  | ArrayInitializer : ArrayInitializerExpression → AstExpression
  | CircuitInline : CircuitInlineExpression → AstExpression
  | Postfix : PostfixExpression → AstExpression

/-- leo_ast NotExpression: one operand sub-tree. -/
inductive NotExpression : Type where
  | mk : AstExpression → NotExpression

/-- leo_ast BinaryExpression: operation tag and two operand sub-trees. -/
inductive BinaryExpression : Type where
  | mk : BinaryOperation → AstExpression → AstExpression → BinaryExpression

/-- leo_ast BinaryOperation: the thirteen raw operation tags. -/
inductive BinaryOperation : Type where
  | Or
  | And
  | Eq
  | Ne
  | Ge
  | Gt
  | Le
  | Lt
  | Add
  | Sub
  | Mul
  | Div
  | Pow

/-- leo_ast TernaryExpression: first/second/third sub-trees. -/
inductive TernaryExpression : Type where
  | mk : AstExpression → AstExpression → AstExpression → TernaryExpression

/-- leo_ast SpreadOrExpression: an array element, spread or plain. -/
inductive AstSpreadOrExpression : Type where
  | Spread : AstExpression → AstSpreadOrExpression
  | Expression : AstExpression → AstSpreadOrExpression

/-- leo_ast ArrayInlineExpression: ordered element list. -/
inductive ArrayInlineExpression : Type where
  | mk : List AstSpreadOrExpression → ArrayInlineExpression

/-- leo_ast ArrayInitializerExpression: the single element sub-tree and
the count literal, as read by `get_count(array.count)`. -/
inductive ArrayInitializerExpression : Type where
  | mk : AstExpression → Value → ArrayInitializerExpression

/-- leo_ast RangeOrExpression (index position of an array access):
a range with optional bounds, or a single index expression. -/
inductive AstRangeOrExpression : Type where
  | Range : Option AstExpression → Option AstExpression → AstRangeOrExpression
  | Expression : AstExpression → AstRangeOrExpression

/-- leo_ast Access: the four postfix access kinds, carrying the payload
field read by the fold in `impl From<PostfixExpression> for Expression`
(`array.expression`, `function.expressions`,
`circuit_object.identifier`). -/
inductive Access : Type where
  | Array : AstRangeOrExpression → Access
  | Call : List AstExpression → Access
  | Object : AstIdentifier → Access
  | StaticObject : AstIdentifier → Access

/-- leo_ast PostfixExpression: base identifier plus ordered accesses. -/
inductive PostfixExpression : Type where
  | mk : AstIdentifier → List Access → PostfixExpression

/-- leo_ast CircuitField: a member name with its initializer. -/
inductive AstCircuitField : Type where
  | mk : AstIdentifier → AstExpression → AstCircuitField

/-- leo_ast CircuitInlineExpression: type name plus ordered members. -/
inductive CircuitInlineExpression : Type where
  | mk : AstIdentifier → List AstCircuitField → CircuitInlineExpression

end

/-- leo_ast AssigneeAccess: the two access kinds of an assignment
target, carrying the payload field read by the fold in
`impl From<Assignee> for Expression` (`circuit_member.identifier`,
`array.expression`). -/
inductive AssigneeAccess : Type where
  | Member : AstIdentifier → AssigneeAccess
  | Array : AstRangeOrExpression → AssigneeAccess

/-- leo_ast Assignee: base identifier plus ordered assignee accesses. -/
structure Assignee where
  identifier : AstIdentifier
  accesses : List AssigneeAccess

/- ===================== literal lowering ===================== -/

/-- Embeds `impl From<FieldValue> for Expression`: the numeral text is
stored verbatim. -/
def fromFieldValue (field : FieldValue) : Expression :=
  Expression.Field field.number.value

/-- Embeds `impl From<GroupValue> for Expression`: stores
`group.to_string()`. -/
def fromGroupValue (group : GroupValue) : Expression :=
  Expression.Group group.to_string

/-- Embeds `impl From<BooleanValue> for Expression`:
`Boolean::Constant(value.parse::<bool>().expect(..))`; `none` models the
construction-time panic on text other than true/false. -/
def fromBooleanValue (boolean : BooleanValue) : Option Expression :=
  (parseBool boolean.value).map (fun b => Expression.Boolean (Boolean.Constant b))

/-- Embeds `impl From<NumberImplicitValue> for Expression`: the numeral
text is stored verbatim. -/
def fromNumberImplicitValue (number : NumberImplicitValue) : Expression :=
  Expression.Implicit number.number.value

/-- Embeds `impl From<IntegerValue> for Expression`: text and type tag
carried through unevaluated. -/
def fromIntegerValue (field : IntegerValue) : Expression :=
  Expression.Integer (Integer.fromParts field.number field._type)

/-- Embeds `impl From<Value> for Expression`: dispatch on the literal
kind; only the boolean arm can fail. -/
def fromValue : Value → Option Expression
  | .Integer num => some (fromIntegerValue num)
  | .Field field => some (fromFieldValue field)
  | .Group group => some (fromGroupValue group)
  | .Boolean b => fromBooleanValue b
  | .Implicit value => some (fromNumberImplicitValue value)

/-- Embeds `Expression::get_count`: the count literal must be an integer
or implicit literal whose text parses as usize; `none` models the
`expect`/`unimplemented!` panics of the other arms. -/
def Expression.get_count : Value → Option Nat
  | .Integer integer => parseUsize integer.number.value
  | .Implicit number => parseUsize number.number.value
  | _ => none

/- ===================== expression lowering =====================

Every function below takes a fuel argument and consumes one unit per
call; `none` at every fuel means the Rust original does not terminate
(or panics) on that input.  For any input on which the Rust code
terminates without panicking there is a fuel making the result `some`.
-/

mutual

/-- Embeds `impl From<AstExpression> for Expression`: dispatch on the
raw shape. -/
def fromAstExpression : Nat → AstExpression → Option Expression
  | 0, _ => none
  | _ + 1, .Value value => fromValue value
  | _ + 1, .Identifier v => some (Expression.Identifier (Identifier.fromAst v))
  | fuel + 1, .Not expression => fromNotExpression fuel expression
  | fuel + 1, .Binary expression => fromBinaryExpression fuel expression
  | fuel + 1, .Ternary expression => fromTernaryExpression fuel expression
  | fuel + 1, .ArrayInline expression => fromArrayInlineExpression fuel expression
  | fuel + 1, .ArrayInitializer expression => fromArrayInitializerExpression fuel expression
  | fuel + 1, .CircuitInline expression => fromCircuitInlineExpression fuel expression
  | fuel + 1, .Postfix expression => fromPostfixExpression fuel expression

/-- Embeds `impl From<NotExpression> for Expression`. -/
def fromNotExpression : Nat → NotExpression → Option Expression
  | 0, _ => none
  | fuel + 1, .mk expression =>
    (fromAstExpression fuel expression).map Expression.Not

/-- Embeds `impl From<BinaryExpression> for Expression`.  Note that the
Ne arm of the source wraps the very same binary node back through the
same conversion (`Expression::Not(Box::new(Expression::from(expression)))`
with `expression.operation` still Ne), so that arm recurses on its own
input. -/
def fromBinaryExpression : Nat → BinaryExpression → Option Expression
  | 0, _ => none
  | fuel + 1, .mk operation left right =>
    match operation with
    | .Or => do
        let l ← fromAstExpression fuel left
        let r ← fromAstExpression fuel right
        pure (Expression.Or l r)
    | .And => do
        let l ← fromAstExpression fuel left
        let r ← fromAstExpression fuel right
        pure (Expression.And l r)
    | .Eq => do
        let l ← fromAstExpression fuel left
        let r ← fromAstExpression fuel right
        pure (Expression.Eq l r)
    | .Ne =>
        (fromBinaryExpression fuel (.mk BinaryOperation.Ne left right)).map Expression.Not
    | .Ge => do
        let l ← fromAstExpression fuel left
        let r ← fromAstExpression fuel right
        pure (Expression.Ge l r)
    | .Gt => do
        let l ← fromAstExpression fuel left
        let r ← fromAstExpression fuel right
        pure (Expression.Gt l r)
    | .Le => do
        let l ← fromAstExpression fuel left
        let r ← fromAstExpression fuel right
        pure (Expression.Le l r)
    | .Lt => do
        let l ← fromAstExpression fuel left
        let r ← fromAstExpression fuel right
        pure (Expression.Lt l r)
    | .Add => do
        let l ← fromAstExpression fuel left
        let r ← fromAstExpression fuel right
        pure (Expression.Add l r)
    | .Sub => do
        let l ← fromAstExpression fuel left
        let r ← fromAstExpression fuel right
        pure (Expression.Sub l r)
    | .Mul => do
        let l ← fromAstExpression fuel left
        let r ← fromAstExpression fuel right
        pure (Expression.Mul l r)
    | .Div => do
        let l ← fromAstExpression fuel left
        let r ← fromAstExpression fuel right
        pure (Expression.Div l r)
    | .Pow => do
        let l ← fromAstExpression fuel left
        let r ← fromAstExpression fuel right
        pure (Expression.Pow l r)

/-- Embeds `impl From<TernaryExpression> for Expression`. -/
def fromTernaryExpression : Nat → TernaryExpression → Option Expression
  | 0, _ => none
  | fuel + 1, .mk first second third => do
      let c ← fromAstExpression fuel first
      let t ← fromAstExpression fuel second
      let e ← fromAstExpression fuel third
      pure (Expression.IfElse c t e)

/-- Embeds `impl From<ArrayInlineExpression> for Expression`: each
element is lowered in source order, preserving spread-ness. -/
def fromArrayInlineExpression : Nat → ArrayInlineExpression → Option Expression
  | 0, _ => none
  | fuel + 1, .mk expressions =>
    (fromAstSpreadOrExpressionList fuel expressions).map Expression.Array

/-- Embeds `impl From<ArrayInitializerExpression> for Expression`:
`get_count` first, then the single element is lowered once and
replicated (`vec![expression; count]`). -/
def fromArrayInitializerExpression : Nat → ArrayInitializerExpression → Option Expression
  | 0, _ => none
  | fuel + 1, .mk expression count => do
      let c ← Expression.get_count count
      let e ← spreadOrExpressionFromAstExpression fuel expression
      pure (Expression.Array (List.replicate c e))

/-- Embeds `impl From<CircuitInlineExpression> for Expression`. -/
def fromCircuitInlineExpression : Nat → CircuitInlineExpression → Option Expression
  | 0, _ => none
  | fuel + 1, .mk identifier members => do
      let ms ← fromAstCircuitFieldList fuel members
      pure (Expression.Circuit (Identifier.fromAst identifier) ms)

/-- Embeds the fold body of `impl From<PostfixExpression> for
Expression`: wrap the accumulator as the first child of the node
determined by the access kind. -/
def postfixAccessStep : Nat → Option Expression → Access → Option Expression
  | 0, _, _ => none
  | _ + 1, none, _ => none
  | fuel + 1, some acc, .Array expression =>
      (fromAstRangeOrExpression fuel expression).map
        (fun r => Expression.ArrayAccess acc r)
  | fuel + 1, some acc, .Call expressions =>
      (fromAstExpressionList fuel expressions).map
        (fun args => Expression.FunctionCall acc args)
  | _ + 1, some acc, .Object identifier =>
      some (Expression.CircuitMemberAccess acc (Identifier.fromAst identifier))
  | _ + 1, some acc, .StaticObject identifier =>
      some (Expression.CircuitStaticFunctionAccess acc (Identifier.fromAst identifier))

/-- Embeds `impl From<PostfixExpression> for Expression`: start from the
base identifier and left-fold the ordered access list. -/
def fromPostfixExpression : Nat → PostfixExpression → Option Expression
  | 0, _ => none
  | fuel + 1, .mk identifier accesses =>
      accesses.foldl (postfixAccessStep fuel)
        (some (Expression.Identifier (Identifier.fromAst identifier)))

/-- Modelled from the spec: `impl From<ast SpreadOrExpression> for
SpreadOrExpression` is not under src/; per the spec, section 4.3, each
element is lowered preserving spread-ness. -/
def fromAstSpreadOrExpression : Nat → AstSpreadOrExpression → Option SpreadOrExpression
  | 0, _ => none
  | fuel + 1, .Spread expression =>
      (fromAstExpression fuel expression).map SpreadOrExpression.Spread
  | fuel + 1, .Expression expression =>
      (fromAstExpression fuel expression).map SpreadOrExpression.Expression

/-- Lowers an element list in source order (the `map` + `collect` of
`impl From<ArrayInlineExpression> for Expression`). -/
def fromAstSpreadOrExpressionList : Nat → List AstSpreadOrExpression → Option (List SpreadOrExpression)
  | 0, _ => none
  | _ + 1, [] => some []
  | fuel + 1, s :: rest => do
      let a ← fromAstSpreadOrExpression fuel s
      let b ← fromAstSpreadOrExpressionList fuel rest
      pure (a :: b)

/-- Modelled from the spec: `impl From<ast Expression> for
SpreadOrExpression` (used by the array initializer) is not under src/;
per the spec, section 4.3, the element is wrapped as a non-spread
SpreadOrExpression. -/
def spreadOrExpressionFromAstExpression : Nat → AstExpression → Option SpreadOrExpression
  | 0, _ => none
  | fuel + 1, expression =>
      (fromAstExpression fuel expression).map SpreadOrExpression.Expression

/-- Modelled from the spec: `impl From<ast RangeOrExpression> for
RangeOrExpression` is not under src/; per the spec, section 4.2, the
access index is resolved into the range-or-expression form, lowering the
contained expressions. -/
def fromAstRangeOrExpression : Nat → AstRangeOrExpression → Option RangeOrExpression
  | 0, _ => none
  | fuel + 1, .Range lo hi => do
      let l ← fromOptionAstExpression fuel lo
      let h ← fromOptionAstExpression fuel hi
      pure (RangeOrExpression.Range l h)
  | fuel + 1, .Expression expression =>
      (fromAstExpression fuel expression).map RangeOrExpression.Expression

/-- Lowers an optional range bound. -/
def fromOptionAstExpression : Nat → Option AstExpression → Option (Option Expression)
  | 0, _ => none
  | _ + 1, none => some none
  | fuel + 1, some e => (fromAstExpression fuel e).map some

/-- Lowers a call-argument list in source order (the `map` + `collect`
of the Call arm of the postfix fold). -/
def fromAstExpressionList : Nat → List AstExpression → Option (List Expression)
  | 0, _ => none
  | _ + 1, [] => some []
  | fuel + 1, e :: rest => do
      let a ← fromAstExpression fuel e
      let b ← fromAstExpressionList fuel rest
      pure (a :: b)

/-- Modelled from the spec: `impl From<ast CircuitField> for
CircuitFieldDefinition` is not under src/; per the spec, section 4.3,
the member name is kept and its initializer lowered. -/
def fromAstCircuitField : Nat → AstCircuitField → Option CircuitFieldDefinition
  | 0, _ => none
  | fuel + 1, .mk identifier expression =>
      (fromAstExpression fuel expression).map
        (fun e => CircuitFieldDefinition.mk (Identifier.fromAst identifier) e)

/-- Lowers a circuit-member list in source order (the `map` + `collect`
of `impl From<CircuitInlineExpression> for Expression`). -/
def fromAstCircuitFieldList : Nat → List AstCircuitField → Option (List CircuitFieldDefinition)
  | 0, _ => none
  | _ + 1, [] => some []
  | fuel + 1, m :: rest => do
      let a ← fromAstCircuitField fuel m
      let b ← fromAstCircuitFieldList fuel rest
      pure (a :: b)

end

/-- Embeds the fold body of `impl From<Assignee> for Expression`: only
member and array accesses exist in the Assignee shape. -/
def assigneeAccessStep : Nat → Option Expression → AssigneeAccess → Option Expression
  | 0, _, _ => none
  | _ + 1, none, _ => none
  | _ + 1, some acc, .Member identifier =>
      some (Expression.CircuitMemberAccess acc (Identifier.fromAst identifier))
  | fuel + 1, some acc, .Array expression =>
      (fromAstRangeOrExpression fuel expression).map
        (fun r => Expression.ArrayAccess acc r)

/-- Embeds `impl From<Assignee> for Expression`: start from the base
identifier and left-fold the ordered assignee accesses. -/
def fromAssignee : Nat → Assignee → Option Expression
  | 0, _ => none
  | fuel + 1, assignee =>
      assignee.accesses.foldl (assigneeAccessStep fuel)
        (some (Expression.Identifier (Identifier.fromAst assignee.identifier)))

/- ===================== textual rendering ===================== -/

/-- Embeds the element loops of the Array, Circuit and FunctionCall
Display arms: write each part, then write the separator when
`i < len - 1`; the subtraction is the checked usize subtraction, and it
is only evaluated inside the loop body. -/
def writeSeparated (parts : List String) : Option String :=
  List.foldlM
    (fun acc x => do
      let m ← usizeSub parts.length 1
      pure (acc ++ x.2 ++ (if x.1 < m then ", " else "")))
    ""
    parts.enum

mutual

/-- Embeds `impl fmt::Display for Expression`; `none` models the panic
of `bool.get_value().unwrap()` in the Boolean arm. -/
def displayExpression : Expression → Option String
  | .Identifier v => some v.name
  | .Integer integer => some integer.number
  | .Field field => some field
  | .Group group => some group
  | .Boolean b =>
      (b.get_value).map (fun v => if v then "true" else "false")
  | .Implicit value => some value
  | .Add left right => do
      let l ← displayExpression left
      let r ← displayExpression right
      pure (l ++ " + " ++ r)
  | .Sub left right => do
      let l ← displayExpression left
      let r ← displayExpression right
      pure (l ++ " - " ++ r)
  | .Mul left right => do
      let l ← displayExpression left
      let r ← displayExpression right
      pure (l ++ " * " ++ r)
  | .Div left right => do
      let l ← displayExpression left
      let r ← displayExpression right
      pure (l ++ " / " ++ r)
  | .Pow left right => do
      let l ← displayExpression left
      let r ← displayExpression right
      pure (l ++ " ** " ++ r)
  | .Not expression =>
      (displayExpression expression).map (fun s => "!" ++ s)
  | .Or lhs rhs => do
      let l ← displayExpression lhs
      let r ← displayExpression rhs
      pure (l ++ " || " ++ r)
  | .And lhs rhs => do
      let l ← displayExpression lhs
      let r ← displayExpression rhs
      pure (l ++ " && " ++ r)
  | .Eq lhs rhs => do
      let l ← displayExpression lhs
      let r ← displayExpression rhs
      pure (l ++ " == " ++ r)
  | .Ge lhs rhs => do
      let l ← displayExpression lhs
      let r ← displayExpression rhs
      pure (l ++ " >= " ++ r)
  | .Gt lhs rhs => do
      let l ← displayExpression lhs
      let r ← displayExpression rhs
      pure (l ++ " > " ++ r)
  | .Le lhs rhs => do
      let l ← displayExpression lhs
      let r ← displayExpression rhs
      pure (l ++ " <= " ++ r)
  | .Lt lhs rhs => do
      let l ← displayExpression lhs
      let r ← displayExpression rhs
      pure (l ++ " < " ++ r)
  | .IfElse first second third => do
      let c ← displayExpression first
      let t ← displayExpression second
      let e ← displayExpression third
      pure ("if " ++ c ++ " then " ++ t ++ " else " ++ e ++ " fi")
  | .Array array => do
      let parts ← displaySpreadOrExpressionList array
      let body ← writeSeparated parts
      pure ("[" ++ body ++ "]")
  | .ArrayAccess array index => do
      let a ← displayExpression array
      let i ← displayRangeOrExpression index
      pure (a ++ "[" ++ i ++ "]")
  | .Circuit var members => do
      let parts ← displayCircuitFieldDefinitionList members
      let body ← writeSeparated parts
      pure (var.name ++ " \x7b" ++ body ++ "\x7d")
  | .CircuitMemberAccess circuit_name member => do
      let c ← displayExpression circuit_name
      pure (c ++ "." ++ member.name)
  | .CircuitStaticFunctionAccess circuit_name member => do
      let c ← displayExpression circuit_name
      pure (c ++ "::" ++ member.name)
  | .FunctionCall function arguments => do
      let f ← displayExpression function
      let parts ← displayExpressionList arguments
      let body ← writeSeparated parts
      pure (f ++ "(" ++ body ++ ")")

/-- Modelled from the spec: Display of SpreadOrExpression is not under
src/; per the spec, section 3, a spread element carries the spread
marker before the element text. -/
def displaySpreadOrExpression : SpreadOrExpression → Option String
  | .Spread e => (displayExpression e).map (fun s => "..." ++ s)
  | .Expression e => displayExpression e

/-- Modelled from the spec: Display of RangeOrExpression is not under
src/; per the spec, section 3, a range shows its optional bounds around
the range dots, a single index shows its expression. -/
def displayRangeOrExpression : RangeOrExpression → Option String
  | .Range lo hi => do
      let l ← displayOptionExpression lo
      let h ← displayOptionExpression hi
      pure (l ++ ".." ++ h)
  | .Expression e => displayExpression e

/-- Renders an optional range bound (absent bound shows as empty). -/
def displayOptionExpression : Option Expression → Option String
  | none => some ""
  | some e => displayExpression e

/-- Renders the element texts of an Array literal in order. -/
def displaySpreadOrExpressionList : List SpreadOrExpression → Option (List String)
  | [] => some []
  | s :: rest => do
      let a ← displaySpreadOrExpression s
      let b ← displaySpreadOrExpressionList rest
      pure (a :: b)

/-- Renders the member texts of a Circuit literal in order, each as the
member name, a colon and the member expression. -/
def displayCircuitFieldDefinitionList : List CircuitFieldDefinition → Option (List String)
  | [] => some []
  | .mk identifier expression :: rest => do
      let a ← displayExpression expression
      let b ← displayCircuitFieldDefinitionList rest
      pure ((identifier.name ++ ": " ++ a) :: b)

/-- Renders the argument texts of a FunctionCall in order. -/
def displayExpressionList : List Expression → Option (List String)
  | [] => some []
  | e :: rest => do
      let a ← displayExpression e
      let b ← displayExpressionList rest
      pure (a :: b)

end

/- ===================== claim-level predicates ===================== -/

mutual

/-- Decides whether every Boolean leaf of an Expression holds a gadget
whose value is resolved (queryable without panicking); the formal
counterpart of the phrase "every Boolean leaf holds a resolved constant
value". -/
def resolvedExpression : Expression → Bool
  | .Identifier _ => true
  | .Integer _ => true
  | .Field _ => true
  | .Group _ => true
  | .Boolean b => (b.get_value).isSome
  | .Implicit _ => true
  | .Add l r => resolvedExpression l && resolvedExpression r
  | .Sub l r => resolvedExpression l && resolvedExpression r
  | .Mul l r => resolvedExpression l && resolvedExpression r
  | .Div l r => resolvedExpression l && resolvedExpression r
  | .Pow l r => resolvedExpression l && resolvedExpression r
  | .Not e => resolvedExpression e
  | .Or l r => resolvedExpression l && resolvedExpression r
  | .And l r => resolvedExpression l && resolvedExpression r
  | .Eq l r => resolvedExpression l && resolvedExpression r
  | .Ge l r => resolvedExpression l && resolvedExpression r
  | .Gt l r => resolvedExpression l && resolvedExpression r
  | .Le l r => resolvedExpression l && resolvedExpression r
  | .Lt l r => resolvedExpression l && resolvedExpression r
  | .IfElse c t e => resolvedExpression c && resolvedExpression t && resolvedExpression e
  | .Array elems => resolvedSpreadOrExpressionList elems
  | .ArrayAccess a idx => resolvedExpression a && resolvedRangeOrExpression idx
  | .Circuit _ members => resolvedCircuitFieldDefinitionList members
  | .CircuitMemberAccess a _ => resolvedExpression a
  | .CircuitStaticFunctionAccess a _ => resolvedExpression a
  | .FunctionCall f args => resolvedExpression f && resolvedExpressionList args

/-- Resolvedness of an array element. -/
def resolvedSpreadOrExpression : SpreadOrExpression → Bool
  | .Spread e => resolvedExpression e
  | .Expression e => resolvedExpression e

/-- Resolvedness of an access index. -/
def resolvedRangeOrExpression : RangeOrExpression → Bool
  | .Range lo hi => resolvedOptionExpression lo && resolvedOptionExpression hi
  | .Expression e => resolvedExpression e

/-- Resolvedness of an optional range bound. -/
def resolvedOptionExpression : Option Expression → Bool
  | none => true
  | some e => resolvedExpression e

/-- Resolvedness of an element list. -/
def resolvedSpreadOrExpressionList : List SpreadOrExpression → Bool
  | [] => true
  | s :: rest => resolvedSpreadOrExpression s && resolvedSpreadOrExpressionList rest

/-- Resolvedness of a circuit member. -/
def resolvedCircuitFieldDefinition : CircuitFieldDefinition → Bool
  | .mk _ e => resolvedExpression e

/-- Resolvedness of a circuit-member list. -/
def resolvedCircuitFieldDefinitionList : List CircuitFieldDefinition → Bool
  | [] => true
  | f :: rest => resolvedCircuitFieldDefinition f && resolvedCircuitFieldDefinitionList rest

/-- Resolvedness of an argument list. -/
def resolvedExpressionList : List Expression → Bool
  | [] => true
  | e :: rest => resolvedExpression e && resolvedExpressionList rest

end

/-- The shapes an assignment target may lower to: the base Identifier,
wrapped only by ArrayAccess and CircuitMemberAccess nodes (in
particular, never by FunctionCall or CircuitStaticFunctionAccess); the
formal counterpart of the assignee restriction of the spec. -/
inductive OnlyArrayAndMemberWrappings : Expression → Prop where
  | base (i : Identifier) : OnlyArrayAndMemberWrappings (.Identifier i)
  | array (b : Expression) (r : RangeOrExpression) :
      OnlyArrayAndMemberWrappings b → OnlyArrayAndMemberWrappings (.ArrayAccess b r)
  | member (b : Expression) (m : Identifier) :
      OnlyArrayAndMemberWrappings b → OnlyArrayAndMemberWrappings (.CircuitMemberAccess b m)

end Leo

namespace Leo

/- ===================== helper lemmas ===================== -/

/-- The Ne arm of the binary lowering recurses on its own input, so it
exhausts every fuel. -/
theorem fromBinaryExpression_ne_eq_none (fuel : Nat) (left right : AstExpression) :
    fromBinaryExpression fuel (.mk BinaryOperation.Ne left right) = none := by
  induction fuel with
  | zero => rfl
  | succ fuel ih => simp [fromBinaryExpression, ih]

/-- Claim C1 (settled as a code bug): lowering a raw binary node whose
operation tag is Ne never produces any IR at all: the Ne arm re-enters
the very same conversion on the very same node, so the lowering diverges
at every recursion depth instead of yielding Not(Eq(lower a, lower b)). -/
theorem c1_ne_lowering_diverges (fuel : Nat) (left right : AstExpression) :
    fromBinaryExpression fuel (.mk BinaryOperation.Ne left right) = none ∧
    fromAstExpression fuel (.Binary (.mk BinaryOperation.Ne left right)) = none := by
  refine ⟨fromBinaryExpression_ne_eq_none fuel left right, ?_⟩
  cases fuel with
  | zero => rfl
  | succ fuel => simp [fromAstExpression, fromBinaryExpression_ne_eq_none]

/-- Claim C6: for every operation tag other than Ne, lowering a raw
binary node recursively lowers both operands and maps the tag one-to-one
to the same-named Expression variant, left operand first, right operand
second, with the operands placed as lowered (no reassociation). -/
theorem c6_binary_table (fuel : Nat) (left right : AstExpression) (l r : Expression)
    (hl : fromAstExpression fuel left = some l)
    (hr : fromAstExpression fuel right = some r) :
    fromAstExpression (fuel + 1 + 1) (.Binary (.mk .Or left right)) = some (.Or l r)
  ∧ fromAstExpression (fuel + 1 + 1) (.Binary (.mk .And left right)) = some (.And l r)
  ∧ fromAstExpression (fuel + 1 + 1) (.Binary (.mk .Eq left right)) = some (.Eq l r)
  ∧ fromAstExpression (fuel + 1 + 1) (.Binary (.mk .Ge left right)) = some (.Ge l r)
  ∧ fromAstExpression (fuel + 1 + 1) (.Binary (.mk .Gt left right)) = some (.Gt l r)
  ∧ fromAstExpression (fuel + 1 + 1) (.Binary (.mk .Le left right)) = some (.Le l r)
  ∧ fromAstExpression (fuel + 1 + 1) (.Binary (.mk .Lt left right)) = some (.Lt l r)
  ∧ fromAstExpression (fuel + 1 + 1) (.Binary (.mk .Add left right)) = some (.Add l r)
  ∧ fromAstExpression (fuel + 1 + 1) (.Binary (.mk .Sub left right)) = some (.Sub l r)
  ∧ fromAstExpression (fuel + 1 + 1) (.Binary (.mk .Mul left right)) = some (.Mul l r)
  ∧ fromAstExpression (fuel + 1 + 1) (.Binary (.mk .Div left right)) = some (.Div l r)
  ∧ fromAstExpression (fuel + 1 + 1) (.Binary (.mk .Pow left right)) = some (.Pow l r) := by
  refine ⟨?_, ?_, ?_, ?_, ?_, ?_, ?_, ?_, ?_, ?_, ?_, ?_⟩ <;>
    simp [fromAstExpression, fromBinaryExpression, hl, hr]

/-- Witness for C6 at a concrete input. -/
theorem c6_binary_table_witness :
    fromAstExpression (1 + 1 + 1) (.Binary (.mk .Or (.Identifier ⟨"a"⟩) (.Value (.Implicit ⟨⟨"2"⟩⟩))))
      = some (.Or (.Identifier ⟨"a"⟩) (.Implicit "2")) :=
  (c6_binary_table 1 (.Identifier ⟨"a"⟩) (.Value (.Implicit ⟨⟨"2"⟩⟩))
    (.Identifier ⟨"a"⟩) (.Implicit "2") rfl rfl).1

/-- Claim C5: a boolean literal lowers to a constant Boolean leaf
exactly when its raw text is "true" or "false"; any other text (such as
"maybe") is a fatal construction error. -/
theorem c5_boolean_literal (s : String) (fuel : Nat) :
    fromBooleanValue ⟨s⟩ =
      (if s = "true" then some (Expression.Boolean (Boolean.Constant true))
       else if s = "false" then some (Expression.Boolean (Boolean.Constant false))
       else none)
  ∧ fromAstExpression (fuel + 1) (.Value (.Boolean ⟨s⟩)) = fromBooleanValue ⟨s⟩
  ∧ fromBooleanValue ⟨"maybe"⟩ = none := by
  refine ⟨?_, ?_, ?_⟩
  · by_cases h1 : s = "true" <;> by_cases h2 : s = "false" <;>
      simp [fromBooleanValue, parseBool, h1, h2]
  · rfl
  · rfl

/-- Claim C8: field, group and implicit literals store the textual form
verbatim: the Field leaf holds the raw numeral text, the Implicit leaf
holds the raw numeral text, and the Group leaf holds the canonical
textual re-rendering of the group value; this holds for every text, so
no numeric parsing takes place. -/
theorem c8_textual_leaves (fuel : Nat) (f : FieldValue) (g : GroupValue)
    (n : NumberImplicitValue) :
    fromAstExpression (fuel + 1) (.Value (.Field f)) = some (Expression.Field f.number.value)
  ∧ fromAstExpression (fuel + 1) (.Value (.Group g)) = some (Expression.Group g.to_string)
  ∧ fromAstExpression (fuel + 1) (.Value (.Implicit n)) = some (Expression.Implicit n.number.value) := by
  exact ⟨rfl, rfl, rfl⟩

/-- Claim C4: an array-initializer count that is not an integer or
implicit literal (for example a boolean), or whose numeral text does not
parse as a non-negative integer, makes `get_count` fail, and lowering
the initializer then fails at construction time instead of defaulting. -/
theorem c4_bad_count_fatal :
    (∀ fuel x count, Expression.get_count count = none →
        fromArrayInitializerExpression (fuel + 1) (.mk x count) = none
      ∧ fromAstExpression (fuel + 1 + 1) (.ArrayInitializer (.mk x count)) = none)
  ∧ (∀ b, Expression.get_count (.Boolean b) = none)
  ∧ (∀ f, Expression.get_count (.Field f) = none)
  ∧ (∀ g, Expression.get_count (.Group g) = none)
  ∧ (∀ iv, parseUsize iv.number.value = none → Expression.get_count (.Integer iv) = none)
  ∧ (∀ nv, parseUsize nv.number.value = none → Expression.get_count (.Implicit nv) = none) := by
  refine ⟨?_, fun b => rfl, fun f => rfl, fun g => rfl, fun iv h => h, fun nv h => h⟩
  intro fuel x count h
  constructor
  · simp [fromArrayInitializerExpression, h]
  · simp [fromAstExpression, fromArrayInitializerExpression, h]

/-- Witness for C4 at concrete inputs: a boolean count literal and an
unparseable numeral text. -/
theorem c4_bad_count_fatal_witness :
    fromAstExpression (0 + 1 + 1)
        (.ArrayInitializer (.mk (.Identifier ⟨"x"⟩) (.Boolean ⟨"true"⟩))) = none
  ∧ Expression.get_count (.Integer ⟨⟨"maybe"⟩, .u32⟩) = none :=
  ⟨(c4_bad_count_fatal.1 0 (.Identifier ⟨"x"⟩) (.Boolean ⟨"true"⟩) rfl).2,
   c4_bad_count_fatal.2.2.2.2.1 ⟨⟨"maybe"⟩, .u32⟩ rfl⟩

/-- Claim C3: lowering the array initializer with a count that resolves
to c yields an Array whose element list is exactly c copies of the
single lowered element, each wrapped as a non-spread element. -/
theorem c3_array_initializer (fuel : Nat) (x : AstExpression) (count : Value)
    (c : Nat) (xe : Expression)
    (hc : Expression.get_count count = some c)
    (hx : fromAstExpression fuel x = some xe) :
    fromAstExpression (fuel + 1 + 1 + 1) (.ArrayInitializer (.mk x count))
        = some (.Array (List.replicate c (SpreadOrExpression.Expression xe)))
  ∧ (List.replicate c (SpreadOrExpression.Expression xe)).length = c
  ∧ ∀ s ∈ List.replicate c (SpreadOrExpression.Expression xe),
      s = SpreadOrExpression.Expression xe := by
  refine ⟨?_, List.length_replicate c _, fun s hs => List.eq_of_mem_replicate hs⟩
  simp [fromAstExpression, fromArrayInitializerExpression,
    spreadOrExpressionFromAstExpression, hc, hx]

/-- Witness for C3 at a concrete input, lowering the initializer with
element 7 and count 3. -/
theorem c3_array_initializer_witness :
    fromAstExpression (1 + 1 + 1 + 1)
        (.ArrayInitializer (.mk (.Value (.Implicit ⟨⟨"7"⟩⟩)) (.Implicit ⟨⟨"3"⟩⟩)))
      = some (.Array (List.replicate 3 (SpreadOrExpression.Expression (.Implicit "7")))) :=
  (c3_array_initializer 1 (.Value (.Implicit ⟨⟨"7"⟩⟩)) (.Implicit ⟨⟨"3"⟩⟩) 3
    (.Implicit "7") rfl rfl).1

end Leo

namespace Leo

/-- Claim C2: lowering a postfix chain is a left fold starting from the
base Identifier; appending one more access wraps the fold of the first
accesses as the first child of the node determined by the kind of the
last access (array index, call, member, static member respectively),
as on the concrete chain a[1](2).b. -/
theorem c2_postfix_left_fold (fuel : Nat) (identifier : AstIdentifier)
    (accesses : List Access) (last : Access) (acc : Expression)
    (range : AstRangeOrExpression) (args : List AstExpression)
    (member : AstIdentifier) :
    fromPostfixExpression (fuel + 1) (.mk identifier [])
      = some (.Identifier (Identifier.fromAst identifier))
  ∧ fromPostfixExpression (fuel + 1) (.mk identifier (accesses ++ [last]))
      = postfixAccessStep fuel
          (fromPostfixExpression (fuel + 1) (.mk identifier accesses)) last
  ∧ postfixAccessStep (fuel + 1) (some acc) (.Array range)
      = (fromAstRangeOrExpression fuel range).map (fun r => Expression.ArrayAccess acc r)
  ∧ postfixAccessStep (fuel + 1) (some acc) (.Call args)
      = (fromAstExpressionList fuel args).map (fun a => Expression.FunctionCall acc a)
  ∧ postfixAccessStep (fuel + 1) (some acc) (.Object member)
      = some (Expression.CircuitMemberAccess acc (Identifier.fromAst member))
  ∧ postfixAccessStep (fuel + 1) (some acc) (.StaticObject member)
      = some (Expression.CircuitStaticFunctionAccess acc (Identifier.fromAst member))
  ∧ fromPostfixExpression 9 (.mk ⟨"a"⟩
        [ .Array (.Expression (.Value (.Implicit ⟨⟨"1"⟩⟩)))
        , .Call [.Value (.Implicit ⟨⟨"2"⟩⟩)]
        , .Object ⟨"b"⟩ ])
      = some (.CircuitMemberAccess
          (.FunctionCall
            (.ArrayAccess (.Identifier ⟨"a"⟩) (.Expression (.Implicit "1")))
            [.Implicit "2"])
          ⟨"b"⟩) := by
  refine ⟨rfl, ?_, rfl, rfl, rfl, rfl, rfl⟩
  simp [fromPostfixExpression, List.foldl_append]

/-- The assignee fold step sends an absent accumulator to an absent
result at every fuel. -/
theorem assigneeAccessStep_none (fuel : Nat) (access : AssigneeAccess) :
    assigneeAccessStep fuel none access = none := by
  cases fuel <;> rfl

/-- Folding assignee accesses over an accumulator whose shape is an
identifier wrapped only by array and member accesses preserves that
shape. -/
theorem assignee_foldl_shape (fuel : Nat) (accesses : List AssigneeAccess) :
    ∀ init e, (∀ a, init = some a → OnlyArrayAndMemberWrappings a) →
      accesses.foldl (assigneeAccessStep fuel) init = some e →
      OnlyArrayAndMemberWrappings e := by
  induction accesses with
  | nil =>
    intro init e hinit h
    exact hinit e h
  | cons access rest ih =>
    intro init e hinit h
    rw [List.foldl_cons] at h
    refine ih (assigneeAccessStep fuel init access) e ?_ h
    intro a ha
    cases init with
    | none => rw [assigneeAccessStep_none] at ha; exact absurd ha (by simp)
    | some a0 =>
      have h0 := hinit a0 rfl
      cases fuel with
      | zero => exact absurd ha (by simp [assigneeAccessStep])
      | succ fuel =>
        cases access with
        | Member m =>
          simp only [assigneeAccessStep, Option.some.injEq] at ha
          exact ha ▸ OnlyArrayAndMemberWrappings.member a0 (Identifier.fromAst m) h0
        | Array r =>
          simp only [assigneeAccessStep] at ha
          rcases Option.map_eq_some'.mp ha with ⟨idx, _, rfl⟩
          exact OnlyArrayAndMemberWrappings.array a0 idx h0

/-- Claim C7: lowering an assignee (base identifier plus array-index and
member accesses only) yields an identifier wrapped only by ArrayAccess
and CircuitMemberAccess nodes; FunctionCall and
CircuitStaticFunctionAccess never appear as wrapping nodes. -/
theorem c7_assignee_shape (fuel : Nat) (assignee : Assignee) (e : Expression)
    (h : fromAssignee fuel assignee = some e) :
    OnlyArrayAndMemberWrappings e := by
  cases fuel with
  | zero => exact absurd h (by simp [fromAssignee])
  | succ fuel =>
    refine assignee_foldl_shape fuel assignee.accesses _ e ?_ h
    intro a ha
    simp only [Option.some.injEq] at ha
    exact ha ▸ OnlyArrayAndMemberWrappings.base (Identifier.fromAst assignee.identifier)

/-- Witness for C7 at a concrete input: lowering the assignee a[1].b. -/
theorem c7_assignee_shape_witness :
    OnlyArrayAndMemberWrappings
      (.CircuitMemberAccess
        (.ArrayAccess (.Identifier ⟨"a"⟩) (.Expression (.Implicit "1")))
        ⟨"b"⟩) :=
  c7_assignee_shape 4
    ⟨⟨"a"⟩, [.Array (.Expression (.Value (.Implicit ⟨⟨"1"⟩⟩))), .Member ⟨"b"⟩]⟩
    _ rfl

/-- A fold in the Option monad whose step always succeeds on the
elements of the list succeeds. -/
theorem foldlM_option_isSome {α β : Type} (f : β → α → Option β) (l : List α) :
    ∀ init, (∀ acc x, x ∈ l → (f acc x).isSome = true) →
      (List.foldlM f init l).isSome = true := by
  induction l with
  | nil => intro init _; rfl
  | cons x rest ih =>
    intro init h
    rw [List.foldlM_cons]
    rcases Option.isSome_iff_exists.mp (h init x (List.mem_cons_self x rest)) with ⟨b, hb⟩
    rw [hb]
    exact ih b (fun acc y hy => h acc y (List.mem_cons_of_mem x hy))

/-- The separator loop never fails: for an empty sequence the body (and
with it the checked subtraction) is never evaluated, and for a non-empty
sequence the subtraction cannot underflow. -/
theorem writeSeparated_isSome (parts : List String) :
    (writeSeparated parts).isSome = true := by
  cases parts with
  | nil => rfl
  | cons p rest =>
    refine foldlM_option_isSome _ _ _ (fun acc x _ => ?_)
    simp [usizeSub]

/-- Claim C10: rendering handles empty sequences without error: an empty
Array renders as a bracket pair, a FunctionCall with no arguments
renders as the callee text followed by a parenthesis pair, an empty
Circuit literal renders as the name followed by a brace pair, and the
separator loop never fails on any list of parts. -/
theorem c10_empty_sequences :
    displayExpression (.Array []) = some "[]"
  ∧ (∀ f : Expression, displayExpression (.FunctionCall f [])
        = (displayExpression f).map (fun s => s ++ "()"))
  ∧ (∀ i : Identifier, displayExpression (.Circuit i []) = some (i.name ++ " \x7b\x7d"))
  ∧ (∀ parts : List String, (writeSeparated parts).isSome = true) := by
  refine ⟨rfl, ?_, ?_, writeSeparated_isSome⟩
  · intro f
    rcases hf : displayExpression f with _ | fs
    · simp [displayExpression, hf]
    · simp [displayExpression, displayExpressionList, writeSeparated, hf, String.append_assoc]
  · intro i
    simp [displayExpression, displayCircuitFieldDefinitionList, writeSeparated,
      String.append_assoc]

end Leo

namespace Leo

/-- isSome of a two-child rendering arm. -/
theorem isSome_bind_pair {α β γ : Type} (x : Option α) (y : Option β) (g : α → β → γ) :
    (x.bind fun a => y.bind fun b => some (g a b)).isSome = (x.isSome && y.isSome) := by
  cases x <;> cases y <;> rfl

/-- isSome of a three-child rendering arm. -/
theorem isSome_bind_triple {α β γ δ : Type} (x : Option α) (y : Option β) (z : Option γ)
    (g : α → β → γ → δ) :
    (x.bind fun a => y.bind fun b => z.bind fun c => some (g a b c)).isSome
      = (x.isSome && y.isSome && z.isSome) := by
  cases x <;> cases y <;> cases z <;> rfl

/-- isSome of a one-child rendering arm. -/
theorem isSome_bind_single {α γ : Type} (x : Option α) (g : α → γ) :
    (x.bind fun a => some (g a)).isSome = x.isSome := by
  cases x <;> rfl

/-- isSome of a sequence arm (parts, then the separator loop). -/
theorem isSome_bind_writeSep {γ : Type} (x : Option (List String)) (g : String → γ) :
    (x.bind fun parts => (writeSeparated parts).bind fun body => some (g body)).isSome
      = x.isSome := by
  cases x with
  | none => rfl
  | some parts =>
    rcases Option.isSome_iff_exists.mp (writeSeparated_isSome parts) with ⟨b, hb⟩
    simp [hb]

/-- isSome of the function-call arm (callee, then parts, then loop). -/
theorem isSome_bind_call {γ : Type} (x : Option String) (y : Option (List String))
    (g : String → String → γ) :
    (x.bind fun a => y.bind fun parts =>
        (writeSeparated parts).bind fun body => some (g a body)).isSome
      = (x.isSome && y.isSome) := by
  cases x with
  | none => rfl
  | some a =>
    cases y with
    | none => rfl
    | some parts =>
      rcases Option.isSome_iff_exists.mp (writeSeparated_isSome parts) with ⟨b, hb⟩
      simp [hb]

/-- Rendering succeeds exactly on trees whose boolean gadgets are all
resolved: the Boolean Display arm is the only failure point. -/
theorem display_isSome_eq_resolved :
    (∀ e, (displayExpression e).isSome = resolvedExpression e)
  ∧ (∀ l, (displayExpressionList l).isSome = resolvedExpressionList l)
  ∧ (∀ l, (displayCircuitFieldDefinitionList l).isSome = resolvedCircuitFieldDefinitionList l)
  ∧ (∀ r, (displayRangeOrExpression r).isSome = resolvedRangeOrExpression r)
  ∧ (∀ o, (displayOptionExpression o).isSome = resolvedOptionExpression o)
  ∧ (∀ l, (displaySpreadOrExpressionList l).isSome = resolvedSpreadOrExpressionList l)
  ∧ (∀ s, (displaySpreadOrExpression s).isSome = resolvedSpreadOrExpression s) := by
  apply displayExpression.mutual_induct <;> intros <;>
    simp_all [displayExpression, displaySpreadOrExpression, displayRangeOrExpression,
      displayOptionExpression, displaySpreadOrExpressionList,
      displayCircuitFieldDefinitionList, displayExpressionList,
      resolvedExpression, resolvedSpreadOrExpression, resolvedRangeOrExpression,
      resolvedOptionExpression, resolvedSpreadOrExpressionList,
      resolvedCircuitFieldDefinition, resolvedCircuitFieldDefinitionList,
      resolvedExpressionList,
      isSome_bind_pair, isSome_bind_triple, isSome_bind_single,
      isSome_bind_writeSep, isSome_bind_call, Option.isSome_map]

end Leo

namespace Leo

/-- Lowering a raw literal yields a tree with resolved gadgets; the only
Boolean leaf it can produce is a constant. -/
theorem fromValue_resolved (v : Value) (out : Expression)
    (h : fromValue v = some out) : resolvedExpression out = true := by
  cases v with
  | Integer n => simp only [fromValue, Option.some.injEq] at h; subst h; rfl
  | Field f => simp only [fromValue, Option.some.injEq] at h; subst h; rfl
  | Group g => simp only [fromValue, Option.some.injEq] at h; subst h; rfl
  | Implicit n => simp only [fromValue, Option.some.injEq] at h; subst h; rfl
  | Boolean b =>
    simp only [fromValue, fromBooleanValue] at h
    rcases Option.map_eq_some'.mp h with ⟨c, _, rfl⟩
    rfl

/-- Replicating a resolved element yields a resolved element list. -/
theorem resolvedSpreadOrExpressionList_replicate (c : Nat) (s : SpreadOrExpression)
    (h : resolvedSpreadOrExpression s = true) :
    resolvedSpreadOrExpressionList (List.replicate c s) = true := by
  induction c with
  | zero => rfl
  | succ c ih => simp [List.replicate_succ, resolvedSpreadOrExpressionList, h, ih]

/-- A left fold whose step preserves a property of the carried
Expression preserves it through the whole fold. -/
theorem foldl_option_preserve {α : Type} (step : Option Expression → α → Option Expression)
    (P : Expression → Prop)
    (hstep : ∀ accOpt x out, step accOpt x = some out →
      (∀ a, accOpt = some a → P a) → P out) :
    ∀ (l : List α) (init : Option Expression) (out : Expression),
      (∀ a, init = some a → P a) → l.foldl step init = some out → P out := by
  intro l
  induction l with
  | nil => intro init out hinit h; exact hinit out h
  | cons x rest ih =>
    intro init out hinit h
    rw [List.foldl_cons] at h
    exact ih (step init x) out (fun a ha => hstep init x a ha hinit) h

/-- Every tree produced by the lowering stage has only resolved boolean
gadgets in its Boolean leaves, for each conversion of the mutual family. -/
theorem lower_resolved (fuel : Nat) :
    (∀ e out, fromAstExpression fuel e = some out → resolvedExpression out = true)
  ∧ (∀ n out, fromNotExpression fuel n = some out → resolvedExpression out = true)
  ∧ (∀ b out, fromBinaryExpression fuel b = some out → resolvedExpression out = true)
  ∧ (∀ t out, fromTernaryExpression fuel t = some out → resolvedExpression out = true)
  ∧ (∀ a out, fromArrayInlineExpression fuel a = some out → resolvedExpression out = true)
  ∧ (∀ a out, fromArrayInitializerExpression fuel a = some out → resolvedExpression out = true)
  ∧ (∀ c out, fromCircuitInlineExpression fuel c = some out → resolvedExpression out = true)
  ∧ (∀ accOpt access out, postfixAccessStep fuel accOpt access = some out →
        (∀ a, accOpt = some a → resolvedExpression a = true) → resolvedExpression out = true)
  ∧ (∀ p out, fromPostfixExpression fuel p = some out → resolvedExpression out = true)
  ∧ (∀ s out, fromAstSpreadOrExpression fuel s = some out →
        resolvedSpreadOrExpression out = true)
  ∧ (∀ l out, fromAstSpreadOrExpressionList fuel l = some out →
        resolvedSpreadOrExpressionList out = true)
  ∧ (∀ e out, spreadOrExpressionFromAstExpression fuel e = some out →
        resolvedSpreadOrExpression out = true)
  ∧ (∀ r out, fromAstRangeOrExpression fuel r = some out →
        resolvedRangeOrExpression out = true)
  ∧ (∀ o out, fromOptionAstExpression fuel o = some out →
        resolvedOptionExpression out = true)
  ∧ (∀ l out, fromAstExpressionList fuel l = some out → resolvedExpressionList out = true)
  ∧ (∀ m out, fromAstCircuitField fuel m = some out →
        resolvedCircuitFieldDefinition out = true)
  ∧ (∀ l out, fromAstCircuitFieldList fuel l = some out →
        resolvedCircuitFieldDefinitionList out = true) := by
  induction fuel with
  | zero =>
    refine ⟨?_, ?_, ?_, ?_, ?_, ?_, ?_, ?_, ?_, ?_, ?_, ?_, ?_, ?_, ?_, ?_, ?_⟩ <;>
      intros <;> simp_all [fromAstExpression, fromNotExpression, fromBinaryExpression,
        fromTernaryExpression, fromArrayInlineExpression, fromArrayInitializerExpression,
        fromCircuitInlineExpression, postfixAccessStep, fromPostfixExpression,
        fromAstSpreadOrExpression, fromAstSpreadOrExpressionList,
        spreadOrExpressionFromAstExpression, fromAstRangeOrExpression,
        fromOptionAstExpression, fromAstExpressionList, fromAstCircuitField,
        fromAstCircuitFieldList]
  | succ fuel ih =>
    obtain ⟨ihA, ihB, ihC, ihD, ihE, ihF, ihG, ihH, ihI, ihJ, ihK, ihL, ihM, ihN,
      ihO, ihP, ihQ⟩ := ih
    refine ⟨?_, ?_, ?_, ?_, ?_, ?_, ?_, ?_, ?_, ?_, ?_, ?_, ?_, ?_, ?_, ?_, ?_⟩
    -- fromAstExpression
    · intro e out h
      cases e with
      | Value v => exact fromValue_resolved v out h
      | Identifier i =>
        obtain rfl := Option.some.inj h
        rfl
      | Not n => exact ihB n out h
      | Binary b => exact ihC b out h
      | Ternary t => exact ihD t out h
      | ArrayInline a => exact ihE a out h
      | ArrayInitializer a => exact ihF a out h
      | CircuitInline c => exact ihG c out h
      | Postfix p => exact ihI p out h
    -- fromNotExpression
    · intro n out h
      cases n with
      | mk e =>
        simp only [fromNotExpression] at h
        rcases Option.map_eq_some'.mp h with ⟨e1, he, rfl⟩
        simpa [resolvedExpression] using ihA e e1 he
    -- fromBinaryExpression
    · intro b out h
      cases b with
      | mk op left right =>
        cases op
        case Ne =>
          simp only [fromBinaryExpression] at h
          rcases Option.map_eq_some'.mp h with ⟨inner, hin, rfl⟩
          simpa [resolvedExpression] using ihC (.mk BinaryOperation.Ne left right) inner hin
        all_goals
          simp only [fromBinaryExpression, Option.pure_def, Option.bind_eq_bind, Option.bind_eq_some, Option.some.injEq] at h
        all_goals
          obtain ⟨l1, hl, r1, hr, rfl⟩ := h
        all_goals
          simp [resolvedExpression, ihA left l1 hl, ihA right r1 hr]
    -- fromTernaryExpression
    · intro t out h
      cases t with
      | mk first second third =>
        simp only [fromTernaryExpression, Option.pure_def, Option.bind_eq_bind, Option.bind_eq_some, Option.some.injEq] at h
        obtain ⟨c1, hc, t1, ht, e1, he, rfl⟩ := h
        simp [resolvedExpression, ihA first c1 hc, ihA second t1 ht, ihA third e1 he]
    -- fromArrayInlineExpression
    · intro a out h
      cases a with
      | mk expressions =>
        simp only [fromArrayInlineExpression] at h
        rcases Option.map_eq_some'.mp h with ⟨l1, hl, rfl⟩
        simpa [resolvedExpression] using ihK expressions l1 hl
    -- fromArrayInitializerExpression
    · intro a out h
      cases a with
      | mk x count =>
        simp only [fromArrayInitializerExpression, Option.pure_def, Option.bind_eq_bind, Option.bind_eq_some,
          Option.some.injEq] at h
        obtain ⟨c1, hc, e1, he, rfl⟩ := h
        simpa [resolvedExpression] using
          resolvedSpreadOrExpressionList_replicate c1 e1 (ihL x e1 he)
    -- fromCircuitInlineExpression
    · intro c out h
      cases c with
      | mk identifier members =>
        simp only [fromCircuitInlineExpression, Option.pure_def, Option.bind_eq_bind, Option.bind_eq_some,
          Option.some.injEq] at h
        obtain ⟨ms, hms, rfl⟩ := h
        simpa [resolvedExpression] using ihQ members ms hms
    -- postfixAccessStep
    · intro accOpt access out h hacc
      cases accOpt with
      | none => cases access <;> simp [postfixAccessStep] at h
      | some a =>
        have ha := hacc a rfl
        cases access with
        | Array r =>
          simp only [postfixAccessStep] at h
          rcases Option.map_eq_some'.mp h with ⟨idx, hidx, rfl⟩
          simp [resolvedExpression, ha, ihM r idx hidx]
        | Call args =>
          simp only [postfixAccessStep] at h
          rcases Option.map_eq_some'.mp h with ⟨as, has, rfl⟩
          simp [resolvedExpression, ha, ihO args as has]
        | Object m =>
          obtain rfl := Option.some.inj h
          simpa [resolvedExpression] using ha
        | StaticObject m =>
          obtain rfl := Option.some.inj h
          simpa [resolvedExpression] using ha
    -- fromPostfixExpression
    · intro p out h
      cases p with
      | mk identifier accesses =>
        simp only [fromPostfixExpression] at h
        refine foldl_option_preserve (postfixAccessStep fuel)
          (fun e => resolvedExpression e = true) ihH accesses _ out ?_ h
        intro a ha
        obtain rfl := Option.some.inj ha
        rfl
    -- fromAstSpreadOrExpression
    · intro s out h
      cases s with
      | Spread e =>
        simp only [fromAstSpreadOrExpression] at h
        rcases Option.map_eq_some'.mp h with ⟨e1, he, rfl⟩
        simpa [resolvedSpreadOrExpression] using ihA e e1 he
      | Expression e =>
        simp only [fromAstSpreadOrExpression] at h
        rcases Option.map_eq_some'.mp h with ⟨e1, he, rfl⟩
        simpa [resolvedSpreadOrExpression] using ihA e e1 he
    -- fromAstSpreadOrExpressionList
    · intro l out h
      cases l with
      | nil =>
        obtain rfl := Option.some.inj h
        rfl
      | cons s rest =>
        simp only [fromAstSpreadOrExpressionList, Option.pure_def, Option.bind_eq_bind, Option.bind_eq_some,
          Option.some.injEq] at h
        obtain ⟨a, hs, b, hrest, rfl⟩ := h
        simp [resolvedSpreadOrExpressionList, ihJ s a hs, ihK rest b hrest]
    -- spreadOrExpressionFromAstExpression
    · intro e out h
      simp only [spreadOrExpressionFromAstExpression] at h
      rcases Option.map_eq_some'.mp h with ⟨e1, he, rfl⟩
      simpa [resolvedSpreadOrExpression] using ihA e e1 he
    -- fromAstRangeOrExpression
    · intro r out h
      cases r with
      | Range lo hi =>
        simp only [fromAstRangeOrExpression, Option.pure_def, Option.bind_eq_bind, Option.bind_eq_some, Option.some.injEq] at h
        obtain ⟨lo1, hlo, hi1, hhi, rfl⟩ := h
        simp [resolvedRangeOrExpression, ihN lo lo1 hlo, ihN hi hi1 hhi]
      | Expression e =>
        simp only [fromAstRangeOrExpression] at h
        rcases Option.map_eq_some'.mp h with ⟨e1, he, rfl⟩
        simpa [resolvedRangeOrExpression] using ihA e e1 he
    -- fromOptionAstExpression
    · intro o out h
      cases o with
      | none =>
        obtain rfl := Option.some.inj h
        rfl
      | some e =>
        simp only [fromOptionAstExpression] at h
        rcases Option.map_eq_some'.mp h with ⟨e1, he, rfl⟩
        simpa [resolvedOptionExpression] using ihA e e1 he
    -- fromAstExpressionList
    · intro l out h
      cases l with
      | nil =>
        obtain rfl := Option.some.inj h
        rfl
      | cons e rest =>
        simp only [fromAstExpressionList, Option.pure_def, Option.bind_eq_bind, Option.bind_eq_some, Option.some.injEq] at h
        obtain ⟨a, he, b, hrest, rfl⟩ := h
        simp [resolvedExpressionList, ihA e a he, ihO rest b hrest]
    -- fromAstCircuitField
    · intro m out h
      cases m with
      | mk identifier expression =>
        simp only [fromAstCircuitField] at h
        rcases Option.map_eq_some'.mp h with ⟨e1, he, rfl⟩
        simpa [resolvedCircuitFieldDefinition] using ihA expression e1 he
    -- fromAstCircuitFieldList
    · intro l out h
      cases l with
      | nil =>
        obtain rfl := Option.some.inj h
        rfl
      | cons m rest =>
        simp only [fromAstCircuitFieldList, Option.pure_def, Option.bind_eq_bind, Option.bind_eq_some, Option.some.injEq] at h
        obtain ⟨a, hm, b, hrest, rfl⟩ := h
        simp [resolvedCircuitFieldDefinitionList, ihP m a hm, ihQ rest b hrest]

end Leo

namespace Leo

/-- Claim C9: the Display arm for Boolean prints the queried gadget
value and panics exactly when the gadget carries no value; rendering an
Expression succeeds exactly when every Boolean leaf is resolved;
lowering a boolean literal only produces constant Boolean leaves; and
rendering any tree produced by the lowering stage therefore never hits
the Boolean panic. -/
theorem c9_boolean_rendering_safety :
    (∀ g, displayExpression (.Boolean g)
        = (Boolean.get_value g).map (fun v => if v then "true" else "false"))
  ∧ (∀ e, (displayExpression e).isSome = resolvedExpression e)
  ∧ (∀ bv e, fromBooleanValue bv = some e → ∃ c, e = .Boolean (.Constant c))
  ∧ (∀ fuel ast e, fromAstExpression fuel ast = some e →
        (displayExpression e).isSome = true) := by
  refine ⟨fun g => rfl, display_isSome_eq_resolved.1, ?_, ?_⟩
  · intro bv e h
    simp only [fromBooleanValue] at h
    rcases Option.map_eq_some'.mp h with ⟨c, _, rfl⟩
    exact ⟨c, rfl⟩
  · intro fuel ast e h
    rw [display_isSome_eq_resolved.1 e]
    exact (lower_resolved fuel).1 ast e h

/-- Witness for C9 at concrete inputs: the lowered literal true is a
constant Boolean leaf, and a concretely lowered tree renders without the
panic. -/
theorem c9_boolean_rendering_safety_witness :
    (∃ c, Expression.Boolean (Boolean.Constant true)
        = Expression.Boolean (Boolean.Constant c))
  ∧ (displayExpression (Expression.Implicit "5")).isSome = true :=
  ⟨c9_boolean_rendering_safety.2.2.1 ⟨"true"⟩
      (Expression.Boolean (Boolean.Constant true)) rfl,
   c9_boolean_rendering_safety.2.2.2 1 (.Value (.Implicit ⟨⟨"5"⟩⟩))
      (Expression.Implicit "5") rfl⟩

end Leo
